import Mathlib

/-!
Verification of the outparamcheck analyzer (palantir/outparamcheck).

This file gives a shallow embedding of the rule-matching analysis engine:
the visitor over statements (`visitor.Visit` in outparamcheck.go), the
expression descent (`processExpression`), call-identity derivation
(`keyAndName`), the address classifier (`isAddr`), the rule-table merge
performed by `Run`, the load-error check (`load`), the violation comparator
(`byLocation.Less` in error.go) and the violation renderer
(`OutParamError.Error`).

Modelling conventions:
  - Go strings are compared and sliced bytewise; we model them as `String`
    and operate on the underlying `List Char` (`.data`), which agrees with
    bytewise order for ASCII and, for lexicographic comparison, for UTF-8
    in general.
  - A Go runtime panic (out-of-range slice index) is modelled by `none`:
    functions that can panic return `Option`.
  - Go map iteration order is arbitrary; the rule table `Config` is a list
    of entries, and order-sensitivity is treated via permutations.
-/

/-- Bytewise-lexicographic strict order on character lists, modelling the
Go `<` operator on strings. -/
def lexLt : List Char → List Char → Bool
  | [], [] => false
  | [], _ :: _ => true
  | _ :: _, [] => false
  | a :: as, b :: bs => if a < b then true else if b < a then false else lexLt as bs

/-- `startsWithChars s pat` holds when `pat` occurs at the beginning of `s`
(Go `strings.HasPrefix` on byte slices). -/
def startsWithChars : List Char → List Char → Bool
  | _, [] => true
  | [], _ :: _ => false
  | a :: as, b :: bs => a = b && startsWithChars as bs

/-- `firstMatchIdx pat s` is the least index at which `pat` occurs inside
`s`, or `none`; this models Go `strings.Index`. -/
def firstMatchIdx (pat : List Char) : List Char → Option Nat
  | [] => if startsWithChars [] pat then some 0 else none
  | c :: t =>
    if startsWithChars (c :: t) pat then some 0
    else (firstMatchIdx pat t).map (· + 1)

/-- Go `strings.HasSuffix s suffix`. -/
def hasSuffixGo (s suffix : String) : Bool :=
  if suffix.data.length ≤ s.data.length then
    s.data.drop (s.data.length - suffix.data.length) == suffix.data
  else false

/-- Sequencing of two possibly-panicking violation lists: both succeed and
the results are concatenated, or the whole computation panics. -/
def appOpt {α : Type} : Option (List α) → Option (List α) → Option (List α)
  | some xs, some ys => some (xs ++ ys)
  | _, _ => none

/-- `token.Position` of go/token: a resolved source position. -/
structure Position where
  filename : String
  offset : Nat
  line : Nat
  column : Nat
deriving DecidableEq, Repr

/-- The unary operator tokens the classifier distinguishes (`token.AND` is
the address-of operator `&`). -/
inductive Tok where
  | andOp
  | notOp
  | subOp
  | mulOp
deriving DecidableEq, Repr

/-- The callee (`call.Fun`) shapes inspected by `keyAndName`, together with
the front-end lookups the code performs on them:
  - `identFn name uses`: a bare identifier; `uses` is the package path of
    its cross-package binding when `v.pkg.TypesInfo.Uses` resolves it to a
    definition with a non-nil package, else `none`.
  - `selector recvPkg xType sel`: a selector expression `X.sel`; `recvPkg`
    is the imported package path when `X` is an identifier bound to a
    package name, and `xType` is the static type string of `X` when
    `v.pkg.TypesInfo.Types` knows it.
  - `otherFun`: any other callee shape (e.g. a call through a function
    value). -/
inductive Callee where
  | identFn (name : String) (usesPkgPath : Option String)
  | selector (recvPkgPath : Option String) (xTypeString : Option String) (sel : String)
  | otherFun
deriving DecidableEq, Repr

mutual
/-- The declaration recorded in `Ident.Obj.Decl`. Only a simple assignment
statement (`*ast.AssignStmt`, with its left-hand names and its non-empty
right-hand expression list) is inspected by `isAddr`; every other
declaration kind (value spec, field, ...) is `otherDecl`.  `none` at the
use site models `Obj == nil` or `Obj.Decl == nil`. -/
inductive GoDecl where
  | assign (lhs : List String) (rhs0 : GoExpr) (rhsRest : List GoExpr)
  | otherDecl

/-- The expression shapes of go/ast that the engine distinguishes.  Shapes
that none of `processExpression`, `isAddr` or `keyAndName` ever look into
(parenthesized expressions, literals, selector values, index expressions,
...) are represented by `paren` and `lit`. -/
inductive GoExpr where
  | unary (op : Tok) (x : GoExpr) (pos : Position)
  | star (x : GoExpr) (pos : Position)
  | ident (name : String) (decl : Option GoDecl) (pos : Position)
  | binary (x y : GoExpr) (pos : Position)
  | keyValue (key value : GoExpr) (pos : Position)
  | composite (elts : List GoExpr) (pos : Position)
  | callE (fn : Callee) (args : List GoExpr) (pos : Position)
  | paren (x : GoExpr) (pos : Position)
  | lit (pos : Position)
end

/-- `Expr.Pos()`. -/
def GoExpr.pos : GoExpr → Position
  | .unary _ _ p => p
  | .star _ p => p
  | .ident _ _ p => p
  | .binary _ _ p => p
  | .keyValue _ _ p => p
  | .composite _ p => p
  | .callE _ _ p => p
  | .paren _ p => p
  | .lit p => p

/-- The rule table: identity-suffix keys mapped to zero-based argument
indices.  A Go `map[string][]int`, modelled as an entry list. -/
abbrev Config := List (String × List Nat)

/-- `OutParamError` of error.go: one violation. -/
structure OutParamError where
  pos : Position
  line : String
  method : String
  argument : Nat
deriving DecidableEq, Repr

/-- `visitor.keyAndName`: derives the qualified identity and the display
name of a call's callee; `none` when the code returns `ok == false`.
Bare identifiers use the binding's package path; selectors use the
imported package path of the receiver when it is a package name, and
otherwise the static type string of the receiver. -/
def keyAndName : Callee → Option (String × String)
  | .identFn name (some path) => some (path ++ "." ++ name, name)
  | .identFn _ none => none
  | .selector (some p) _ sel => some (p ++ "." ++ sel, sel)
  | .selector none (some t) sel => some (t ++ "." ++ sel, sel)
  | .selector none none _ => none
  | .otherFun => none

/-- `isAddr`: the address classifier.  `&x` is accepted; `*(&x)` is
accepted; a bare identifier whose recorded declaration is a simple
assignment is classified by that assignment's first right-hand expression
`Rhs[0]`; any remaining identifier is accepted exactly when it is named
`nil`; everything else is rejected. -/
def isAddr : GoExpr → Bool
  | .unary op _ _ => op = Tok.andOp
  | .star x _ =>
    match x with
    | .unary op _ _ => op = Tok.andOp
    | _ => false
  | .ident name decl _ =>
    match decl with
    | some (.assign _ r _) => isAddr r
    | _ => name = "nil"
  | _ => false

/-- Go `unicode.IsSpace` restricted to the ASCII whitespace characters
that occur in source lines. -/
def isSpaceChar (c : Char) : Bool :=
  c = ' ' || c = '\t' || c = '\n' || c = '\r'

/-- Go `strings.TrimSpace`. -/
def trimSpaceGo (s : String) : String :=
  ⟨((s.data.dropWhile isSpaceChar).reverse.dropWhile isSpaceChar).reverse⟩

/-- The per-visitor line cache of `errorAt`, abstracted: the split
contents of each source file. -/
abbrev FileLines := String → List String

/-- The source-line lookup done by `visitor.errorAt`: the trimmed line at
the violation's position, or the empty string when the file is shorter. -/
def lineAt (fileLines : FileLines) (p : Position) : String :=
  let lines := fileLines p.filename
  if p.line - 1 < lines.length then trimSpaceGo (lines.getD (p.line - 1) "") else ""

/-- `visitor.errorAt`: builds the violation record. -/
def errorAt (fileLines : FileLines) (pos : Position) (method : String) (argument : Nat) :
    OutParamError :=
  ⟨pos, lineAt fileLines pos, method, argument⟩

/-- The inner loop of `processExpression`'s call case: `for _, i := range
outs { arg := call.Args[i]; if !isAddr(arg) { v.errorAt(...) } }`.  The
unchecked index `call.Args[i]` panics (`none`) when `i` is out of range. -/
def checkIdxs (fileLines : FileLines) (args : List GoExpr) (method : String) :
    List Nat → Option (List OutParamError)
  | [] => some []
  | i :: rest =>
    match args[i]? with
    | none => none
    | some arg =>
      appOpt (some (if isAddr arg then [] else [errorAt fileLines arg.pos method i]))
        (checkIdxs fileLines args method rest)

/-- The outer loop of `processExpression`'s call case: `for name, outs :=
range v.cfg { if strings.HasSuffix(key, name) { ... } }`. -/
def checkRules (fileLines : FileLines) (args : List GoExpr) (key method : String) :
    Config → Option (List OutParamError)
  | [] => some []
  | rule :: rest =>
    appOpt
      (if hasSuffixGo key rule.1 then checkIdxs fileLines args method rule.2 else some [])
      (checkRules fileLines args key method rest)

/-- The whole `*ast.CallExpr` case of `processExpression`: resolve the
identity, then run every suffix-matching rule over the configured
argument indices. -/
def processCall (fileLines : FileLines) (cfg : Config) (fn : Callee) (args : List GoExpr) :
    Option (List OutParamError) :=
  match keyAndName fn with
  | none => some []
  | some (key, method) => checkRules fileLines args key method cfg

mutual
/-- `visitor.processExpression`: descends through binary operands,
key-value values and composite-literal elements; on a call expression it
checks the call against the rule table and does not descend further; every
other expression shape is ignored. -/
def processExpression (fileLines : FileLines) (cfg : Config) :
    GoExpr → Option (List OutParamError)
  | .unary _ _ _ => some []
  | .star _ _ => some []
  | .ident _ _ _ => some []
  | .binary x y _ =>
    appOpt (processExpression fileLines cfg x) (processExpression fileLines cfg y)
  | .keyValue _ v _ => processExpression fileLines cfg v
  | .composite elts _ => processExprList fileLines cfg elts
  | .callE fn args _ => processCall fileLines cfg fn args
  | .paren _ _ => some []
  | .lit _ => some []

/-- Left-to-right processing of an expression list (the loops of
`processExpression` over `Elts` and of `Visit` over `Rhs`/`Results`). -/
def processExprList (fileLines : FileLines) (cfg : Config) :
    List GoExpr → Option (List OutParamError)
  | [] => some []
  | e :: es =>
    appOpt (processExpression fileLines cfg e) (processExprList fileLines cfg es)
end

/-- One entry of a switch statement body: either a case clause with its
label expression list, or any other statement. -/
inductive SwitchItem where
  | caseClause (labels : List GoExpr)
  | otherItem

/-- The statement shapes distinguished by `visitor.Visit`.  Statements
whose case is absent from the type switch are `otherStmt`. -/
inductive Stmt where
  | assign (lhs rhs : List GoExpr)
  | goStmt (call : GoExpr)
  | deferStmt (call : GoExpr)
  | send (ch value : GoExpr)
  | ret (results : List GoExpr)
  | switchStmt (body : List SwitchItem)
  | exprStmt (x : GoExpr)
  | otherStmt

/-- The switch-statement loop of `Visit`: process the label expressions of
every case clause in the body. -/
def processSwitchBody (fileLines : FileLines) (cfg : Config) :
    List SwitchItem → Option (List OutParamError)
  | [] => some []
  | .caseClause labels :: rest =>
    appOpt (processExprList fileLines cfg labels) (processSwitchBody fileLines cfg rest)
  | .otherItem :: rest => processSwitchBody fileLines cfg rest

/-- `visitor.Visit`: the statement-level dispatch.  Assignments process
their right-hand sides, go/defer statements their call, send statements
their value, return statements their results, switch statements their case
labels, expression statements their expression. -/
def visitStmt (fileLines : FileLines) (cfg : Config) : Stmt → Option (List OutParamError)
  | .assign _ rhs => processExprList fileLines cfg rhs
  | .goStmt c => processExpression fileLines cfg c
  | .deferStmt c => processExpression fileLines cfg c
  | .send _ v => processExpression fileLines cfg v
  | .ret results => processExprList fileLines cfg results
  | .switchStmt body => processSwitchBody fileLines cfg body
  | .exprStmt x => processExpression fileLines cfg x
  | .otherStmt => some []

mutual
/-- The call expressions that `processExpression` examines as call sites,
in the order it reaches them: pre-order through binary operands, key-value
values and composite elements; a call expression is collected itself and
its arguments and callee are not entered. -/
def checkedCalls : GoExpr → List GoExpr
  | .unary _ _ _ => []
  | .star _ _ => []
  | .ident _ _ _ => []
  | .binary x y _ => checkedCalls x ++ checkedCalls y
  | .keyValue _ v _ => checkedCalls v
  | .composite elts _ => checkedCallsList elts
  | .callE fn args p => [.callE fn args p]
  | .paren _ _ => []
  | .lit _ => []

/-- `checkedCalls` over a list of expressions. -/
def checkedCallsList : List GoExpr → List GoExpr
  | [] => []
  | e :: es => checkedCalls e ++ checkedCallsList es
end

/-- Rule-checking of a single collected call node. -/
def checkCallNode (fileLines : FileLines) (cfg : Config) : GoExpr → Option (List OutParamError)
  | .callE fn args _ => processCall fileLines cfg fn args
  | _ => some []

/-- Sequencing of a check over a list of collected call nodes. -/
def seqChecks (f : GoExpr → Option (List OutParamError)) :
    List GoExpr → Option (List OutParamError)
  | [] => some []
  | e :: es => appOpt (f e) (seqChecks f es)

/-- `byLocation.Less` of error.go, verbatim: compare file names, else line
numbers, else return true when the first column is strictly smaller, else
compare the raw source-line texts. -/
def byLocationLess (ei ej : OutParamError) : Bool :=
  if ei.pos.filename ≠ ej.pos.filename then lexLt ei.pos.filename.data ej.pos.filename.data
  else if ei.pos.line ≠ ej.pos.line then decide (ei.pos.line < ej.pos.line)
  else if ei.pos.column < ej.pos.column then decide (ei.pos.column < ej.pos.column)
  else lexLt ei.line.data ej.line.data

/-- The non-strict companion of `byLocationLess`: `a` may come no later
than `b`.  A comparison sort driven by the strict `Less` produces an
output sorted by this relation. -/
def vioLe (a b : OutParamError) : Prop := byLocationLess b a = false

instance : DecidableRel vioLe :=
  fun a b => inferInstanceAs (Decidable (byLocationLess b a = false))

/-- `reportErrors`' sort: `sort.Sort(byLocation(errs))`.  Modelled as an
insertion sort driven by the `Less` comparator; on two-element inputs this
coincides step for step with Go's insertion sort (swap exactly when
`Less(a[1], a[0])`), and whenever `Less` is a strict weak order the
sorted output of any comparison sort is characterised by `vioLe`
sortedness plus permutation. -/
def sortErrs (errs : List OutParamError) : List OutParamError :=
  List.insertionSort vioLe errs

/-- `token.Position.String()` for a valid position with a nonzero
column: `file:line:column`. -/
def posString (p : Position) : String :=
  p.filename ++ ":" ++ toString p.line ++ ":" ++ toString p.column

/-- The marker whose first occurrence (and everything before it) is
trimmed from the rendered position. -/
def srcMarker : List Char := "/src/".data

/-- The position trimming of `OutParamError.Error`: everything up to and
including the first occurrence of `/src/` is removed. -/
def trimPosGo (pos : String) : String :=
  match firstMatchIdx srcMarker pos.data with
  | some i => ⟨pos.data.drop (i + srcMarker.length)⟩
  | none => pos

/-- The comment stripping of `OutParamError.Error`: the line is cut at the
first occurrence of `//`. -/
def stripComment (line : String) : String :=
  match firstMatchIdx "//".data line.data with
  | some i => ⟨line.data.take i⟩
  | none => line

/-- `humanize.Ordinal` (dustin/go-humanize): the English ordinal of a
positive number. -/
def ordinalGo (x : Nat) : String :=
  let suffix :=
    if 11 ≤ x % 100 ∧ x % 100 ≤ 13 then "th"
    else
      match x % 10 with
      | 1 => "st"
      | 2 => "nd"
      | 3 => "rd"
      | _ => "th"
  toString x ++ suffix

/-- Everything of the rendered violation line after the tab: the trimmed,
comment-stripped source line and the trailing fix-it comment. -/
def errRest (e : OutParamError) : String :=
  trimSpaceGo (stripComment e.line) ++ "  // " ++ ordinalGo (e.argument + 1) ++
    " argument of '" ++ e.method ++ "' requires '&'"

/-- `OutParamError.Error`: one rendered violation line. -/
def errString (e : OutParamError) : String :=
  trimPosGo (posString e.pos) ++ "\t" ++ errRest e

/-- The lines printed by `reportErrors`, in order. -/
def reportOutput (errs : List OutParamError) : List String :=
  (sortErrs errs).map errString

/-- Go string equality on map keys (bytewise value equality). -/
def strEqGo (a b : String) : Bool := a.data == b.data

/-- Lookup in the modelled Go map. -/
def lookupGo (k : String) : Config → Option (List Nat)
  | [] => none
  | entry :: rest => if strEqGo entry.1 k then some entry.2 else lookupGo k rest

/-- `m[k] = v` on the modelled Go map: replace the entry when the key is
present, append it otherwise. -/
def insertGo (m : Config) (k : String) (v : List Nat) : Config :=
  if m.any (fun entry => strEqGo entry.1 k) then
    m.map (fun entry => if strEqGo entry.1 k then (k, v) else entry)
  else m ++ [(k, v)]

/-- One copy loop of `Run`: `for key, val := range src { cfg[key] = val }`. -/
def copyInto (dst : Config) : Config → Config
  | [] => dst
  | entry :: rest => copyInto (insertGo dst entry.1 entry.2) rest

/-- The table merge performed by `Run`: start from the empty table, copy
the user configuration in, then copy the built-in defaults in (overwriting
user entries that share a key). -/
def mergeCfg (usrCfg defaultCfg : Config) : Config :=
  copyInto (copyInto [] usrCfg) defaultCfg

/-- One loaded compilation unit as `load` sees it: its identifier, its
load errors, and its syntax (the statements the visitor will walk). -/
structure GoPackage where
  id : String
  errs : List String
  stmts : List Stmt

/-- Go `fmt`'s `%v` rendering of the error slice. -/
def fmtErrList (es : List String) : String :=
  "[" ++ String.intercalate " " es ++ "]"

/-- The message built by `load` for a package with errors. -/
def loadErrMsg (p : GoPackage) : String :=
  "errors while loading package " ++ p.id ++ ": " ++ fmtErrList p.errs

/-- The error-checking loop of `load`: return on the first package that
carries load errors. -/
def loadCheckLoop (pkgs : List GoPackage) : List GoPackage → Except String (List GoPackage)
  | [] => .ok pkgs
  | p :: rest =>
    if p.errs.length > 0 then .error (loadErrMsg p) else loadCheckLoop pkgs rest

/-- `load`'s post-load check over the loaded packages. -/
def loadCheck (pkgs : List GoPackage) : Except String (List GoPackage) :=
  loadCheckLoop pkgs pkgs

/-- The per-file statement walk of `run`: every statement of the unit is
offered to the visitor. -/
def visitFile (fileLines : FileLines) (cfg : Config) : List Stmt → Option (List OutParamError)
  | [] => some []
  | s :: rest => appOpt (visitStmt fileLines cfg s) (visitFile fileLines cfg rest)

/-- The analysis of one compilation unit. -/
def runPkg (fileLines : FileLines) (cfg : Config) (p : GoPackage) : Option (List OutParamError) :=
  visitFile fileLines cfg p.stmts

/-- `Run`'s load-then-analyze sequencing: a load failure aborts before any
unit is analyzed. -/
def runTop (fileLines : FileLines) (cfg : Config) (pkgs : List GoPackage) :
    Except String (List (Option (List OutParamError))) :=
  match loadCheck pkgs with
  | .error m => .error m
  | .ok ps => .ok (ps.map (runPkg fileLines cfg))

/-- The spec's Address Classifier contract, stated independently of the
code: an address-of unary expression; a dereference applied directly to an
address-of expression; the literal `nil` (a bare identifier named `nil`
not bound by a simple assignment); and a bare identifier traced through
its defining simple assignment whose source expression is itself
address-taking. -/
inductive IsAddressSpec : GoExpr → Prop where
  | addrOf (x : GoExpr) (p : Position) : IsAddressSpec (.unary .andOp x p)
  | derefAddrOf (x : GoExpr) (p q : Position) :
      IsAddressSpec (.star (.unary .andOp x q) p)
  | nilLit (d : Option GoDecl) (p : Position)
      (h : ∀ lhs r rs, d ≠ some (.assign lhs r rs)) :
      IsAddressSpec (.ident "nil" d p)
  | traced (n : String) (lhs : List String) (r : GoExpr) (rs : List GoExpr) (p : Position)
      (h : IsAddressSpec r) :
      IsAddressSpec (.ident n (some (.assign lhs r rs)) p)

/-- Outcome equivalence of two possibly-panicking analyses: both panic, or
both succeed with the same violations up to order. -/
def OptPerm : Option (List OutParamError) → Option (List OutParamError) → Prop
  | none, none => True
  | some l₁, some l₂ => l₁.Perm l₂
  | _, _ => False

/-- The sort key the comparator is meant to order by: file name bytes,
line, column. -/
def vkey (v : OutParamError) : List Char × Nat × Nat :=
  (v.pos.filename.data, v.pos.line, v.pos.column)

/-- Strict lexicographic order on pairs of numbers (line, column). -/
def natPairLt (a b : Nat × Nat) : Bool :=
  if a.1 < b.1 then true
  else if b.1 < a.1 then false
  else decide (a.2 < b.2)

/-- Strict lexicographic order on sort keys. -/
def keyLt (a b : List Char × Nat × Nat) : Bool :=
  if lexLt a.1 b.1 then true
  else if lexLt b.1 a.1 then false
  else natPairLt a.2 b.2

/-- In any actual run, two violations on the same line of the same file
render the same cached source-line text; `GoodText` states that invariant
for a violation list. -/
def GoodText (l : List OutParamError) : Prop :=
  ∀ a ∈ l, ∀ b ∈ l, a.pos.filename = b.pos.filename → a.pos.line = b.pos.line →
    a.line = b.line

/-- In any actual run, a violation is determined by its source position
(the position identifies the argument node, hence the call, the method
name and the argument index); `KeyInj` states that invariant for a
violation list. -/
def KeyInj (l : List OutParamError) : Prop :=
  ∀ a ∈ l, ∀ b ∈ l, a.pos.filename = b.pos.filename → a.pos.line = b.pos.line →
    a.pos.column = b.pos.column → a = b

/-- An empty line cache: no source file contents are available, so every
rendered violation carries an empty source line. -/
def emptyLines : FileLines := fun _ => []

theorem appOpt_assoc {α : Type} (a b c : Option (List α)) :
    appOpt (appOpt a b) c = appOpt a (appOpt b c) := by
  cases a <;> cases b <;> cases c <;> simp [appOpt]

theorem appOpt_nil_right {α : Type} (a : Option (List α)) : appOpt a (some []) = a := by
  cases a <;> simp [appOpt]

theorem seqChecks_append (f : GoExpr → Option (List OutParamError)) (l₁ l₂ : List GoExpr) :
    seqChecks f (l₁ ++ l₂) = appOpt (seqChecks f l₁) (seqChecks f l₂) := by
  induction l₁ with
  | nil =>
    cases h : seqChecks f l₂ <;> simp [seqChecks, appOpt, h]
  | cons e es ih =>
    simp only [List.cons_append, seqChecks, List.append_eq, ih, appOpt_assoc]

mutual
theorem processExpression_factor (fl : FileLines) (cfg : Config) :
    ∀ e : GoExpr,
      processExpression fl cfg e = seqChecks (checkCallNode fl cfg) (checkedCalls e)
  | .unary _ _ _ => rfl
  | .star _ _ => rfl
  | .ident _ _ _ => rfl
  | .binary x y _ => by
    rw [processExpression, checkedCalls, seqChecks_append,
      processExpression_factor fl cfg x, processExpression_factor fl cfg y]
  | .keyValue _ v _ => by
    rw [processExpression, checkedCalls, processExpression_factor fl cfg v]
  | .composite elts _ => by
    rw [processExpression, checkedCalls, processExprList_factor fl cfg elts]
  | .callE fn args p => by
    rw [processExpression, checkedCalls]
    show processCall fl cfg fn args
      = appOpt (checkCallNode fl cfg (.callE fn args p)) (seqChecks (checkCallNode fl cfg) [])
    rw [seqChecks, appOpt_nil_right, checkCallNode]
  | .paren _ _ => rfl
  | .lit _ => rfl

theorem processExprList_factor (fl : FileLines) (cfg : Config) :
    ∀ es : List GoExpr,
      processExprList fl cfg es = seqChecks (checkCallNode fl cfg) (checkedCallsList es)
  | [] => rfl
  | e :: es => by
    rw [processExprList, checkedCallsList, seqChecks_append,
      processExpression_factor fl cfg e, processExprList_factor fl cfg es]
end

theorem checkIdxs_mem (fl : FileLines) (args : List GoExpr) (method : String)
    (idxs : List Nat) (vs : List OutParamError)
    (h : checkIdxs fl args method idxs = some vs) :
    ∀ v ∈ vs, v.argument ∈ idxs ∧ v.argument < args.length := by
  induction idxs generalizing vs with
  | nil =>
    rw [checkIdxs] at h
    cases h
    intro v hv
    cases hv
  | cons i rest ih =>
    rw [checkIdxs] at h
    cases hi : args[i]? with
    | none => rw [hi] at h; cases h
    | some arg =>
      rw [hi] at h
      cases hr : checkIdxs fl args method rest with
      | none => rw [hr] at h; cases h
      | some vs2 =>
        rw [hr] at h
        simp only [appOpt] at h
        cases h
        intro v hv
        rcases List.mem_append.mp hv with hv1 | hv2
        · have hvarg : v = errorAt fl arg.pos method i := by
            by_cases ha : isAddr arg = true
            · simp [ha] at hv1
            · simp [Bool.not_eq_true] at ha
              simp [ha] at hv1
              exact hv1
          have hlen : i < args.length := by
            rcases List.getElem?_eq_some.mp hi with ⟨hlt, _⟩
            exact hlt
          subst hvarg
          exact ⟨List.mem_cons_self i rest, hlen⟩
        · rcases ih vs2 hr v hv2 with ⟨h1, h2⟩
          exact ⟨List.mem_cons_of_mem i h1, h2⟩

theorem checkIdxs_isSome (fl : FileLines) (args : List GoExpr) (method : String)
    (idxs : List Nat) (h : ∀ i ∈ idxs, i < args.length) :
    ∃ vs, checkIdxs fl args method idxs = some vs := by
  induction idxs with
  | nil => exact ⟨[], rfl⟩
  | cons i rest ih =>
    have hi : i < args.length := h i (List.mem_cons_self i rest)
    rcases ih (fun j hj => h j (List.mem_cons_of_mem i hj)) with ⟨vs2, hvs2⟩
    refine ⟨(if isAddr args[i] then [] else [errorAt fl (args[i].pos) method i]) ++ vs2, ?_⟩
    rw [checkIdxs, List.getElem?_eq_getElem hi, hvs2]
    simp [appOpt]

theorem checkRules_mem (fl : FileLines) (args : List GoExpr) (key method : String)
    (cfg : Config) (vs : List OutParamError)
    (h : checkRules fl args key method cfg = some vs) :
    ∀ v ∈ vs, ∃ r ∈ cfg, hasSuffixGo key r.1 = true ∧ v.argument ∈ r.2 ∧
      v.argument < args.length := by
  induction cfg generalizing vs with
  | nil =>
    rw [checkRules] at h
    cases h
    intro v hv
    cases hv
  | cons rule rest ih =>
    rw [checkRules] at h
    cases hhead : (if hasSuffixGo key rule.1 then checkIdxs fl args method rule.2
        else some []) with
    | none => rw [hhead] at h; cases h
    | some vs1 =>
      rw [hhead] at h
      cases hrest : checkRules fl args key method rest with
      | none => rw [hrest] at h; cases h
      | some vs2 =>
        rw [hrest] at h
        simp only [appOpt] at h
        cases h
        intro v hv
        rcases List.mem_append.mp hv with hv1 | hv2
        · by_cases hs : hasSuffixGo key rule.1 = true
          · rw [if_pos hs] at hhead
            rcases checkIdxs_mem fl args method rule.2 vs1 hhead v hv1 with ⟨h1, h2⟩
            exact ⟨rule, List.mem_cons_self rule rest, hs, h1, h2⟩
          · simp only [Bool.not_eq_true] at hs
            rw [hs] at hhead
            simp at hhead
            subst hhead
            cases hv1
        · rcases ih vs2 hrest v hv2 with ⟨r, hr, h1, h2, h3⟩
          exact ⟨r, List.mem_cons_of_mem rule hr, h1, h2, h3⟩

theorem checkRules_isSome (fl : FileLines) (args : List GoExpr) (key method : String)
    (cfg : Config)
    (h : ∀ r ∈ cfg, hasSuffixGo key r.1 = true → ∀ i ∈ r.2, i < args.length) :
    ∃ vs, checkRules fl args key method cfg = some vs := by
  induction cfg with
  | nil => exact ⟨[], rfl⟩
  | cons rule rest ih =>
    rcases ih (fun r hr => h r (List.mem_cons_of_mem rule hr)) with ⟨vs2, hvs2⟩
    by_cases hs : hasSuffixGo key rule.1 = true
    · rcases checkIdxs_isSome fl args method rule.2
        (h rule (List.mem_cons_self rule rest) hs) with ⟨vs1, hvs1⟩
      refine ⟨vs1 ++ vs2, ?_⟩
      rw [checkRules, if_pos hs, hvs1, hvs2]
      rfl
    · simp only [Bool.not_eq_true] at hs
      refine ⟨vs2, ?_⟩
      rw [checkRules, hs, hvs2]
      simp [appOpt]

theorem checkRules_no_match (fl : FileLines) (args : List GoExpr) (key method : String)
    (cfg : Config) (h : ∀ r ∈ cfg, hasSuffixGo key r.1 = false) :
    checkRules fl args key method cfg = some [] := by
  induction cfg with
  | nil => rfl
  | cons rule rest ih =>
    rw [checkRules, h rule (List.mem_cons_self rule rest),
      ih (fun r hr => h r (List.mem_cons_of_mem rule hr))]
    simp [appOpt]

theorem lexLt_irrefl : ∀ l : List Char, lexLt l l = false
  | [] => rfl
  | a :: as => by
    rw [lexLt, if_neg (lt_irrefl a), if_neg (lt_irrefl a)]
    exact lexLt_irrefl as

theorem lexLt_asymm : ∀ {l₁ l₂ : List Char}, lexLt l₁ l₂ = true → lexLt l₂ l₁ = false
  | [], [], h => by cases h
  | [], _ :: _, _ => rfl
  | _ :: _, [], h => by cases h
  | a :: as, b :: bs, h => by
    rw [lexLt] at h ⊢
    by_cases hab : a < b
    · rw [if_neg (asymm hab), if_pos hab]
    · rw [if_neg hab] at h
      by_cases hba : b < a
      · rw [if_pos hba] at h
        cases h
      · rw [if_neg hba] at h
        rw [if_neg hba, if_neg hab]
        exact lexLt_asymm h

theorem lexLt_trans : ∀ {l₁ l₂ l₃ : List Char},
    lexLt l₁ l₂ = true → lexLt l₂ l₃ = true → lexLt l₁ l₃ = true
  | [], [], _, h, _ => by cases h
  | [], _ :: _, [], _, h => by cases h
  | [], _ :: _, _ :: _, _, _ => rfl
  | _ :: _, [], _, h, _ => by cases h
  | _ :: _, _ :: _, [], _, h => by cases h
  | a :: as, b :: bs, c :: cs, h1, h2 => by
    rw [lexLt] at h1 h2 ⊢
    by_cases hab : a < b
    · by_cases hbc : b < c
      · rw [if_pos (lt_trans hab hbc)]
      · rw [if_neg hbc] at h2
        by_cases hcb : c < b
        · rw [if_pos hcb] at h2; cases h2
        · have hbcq : b = c := le_antisymm (le_of_not_lt hcb) (le_of_not_lt hbc)
          rw [if_pos (hbcq ▸ hab)]
    · rw [if_neg hab] at h1
      by_cases hba : b < a
      · rw [if_pos hba] at h1; cases h1
      · rw [if_neg hba] at h1
        have habq : a = b := le_antisymm (le_of_not_lt hba) (le_of_not_lt hab)
        subst habq
        by_cases hac : a < c
        · rw [if_pos hac]
        · rw [if_neg hac] at h2 ⊢
          by_cases hca : c < a
          · rw [if_pos hca] at h2; cases h2
          · rw [if_neg hca] at h2 ⊢
            exact lexLt_trans h1 h2

theorem lexLt_eq_of_not : ∀ {l₁ l₂ : List Char},
    lexLt l₁ l₂ = false → lexLt l₂ l₁ = false → l₁ = l₂
  | [], [], _, _ => rfl
  | [], _ :: _, h, _ => by cases h
  | _ :: _, [], _, h => by cases h
  | a :: as, b :: bs, h1, h2 => by
    rw [lexLt] at h1 h2
    by_cases hab : a < b
    · rw [if_pos hab] at h1; cases h1
    · rw [if_neg hab] at h1
      by_cases hba : b < a
      · rw [if_pos hba] at h2; cases h2
      · rw [if_neg hba] at h1
        rw [if_neg hba, if_neg hab] at h2
        have hs := lexLt_eq_of_not h1 h2
        have he : a = b := le_antisymm (le_of_not_lt hba) (le_of_not_lt hab)
        rw [he, hs]


theorem stringData_inj {a b : String} (h : a.data = b.data) : a = b := by
  cases a
  cases b
  exact congrArg String.mk h

theorem natPairLt_iff (a b : Nat × Nat) :
    natPairLt a b = true ↔ (a.1 < b.1 ∨ (a.1 = b.1 ∧ a.2 < b.2)) := by
  unfold natPairLt
  split_ifs <;> simp <;> omega

theorem natPairLt_false_iff (a b : Nat × Nat) :
    natPairLt a b = false ↔ ¬ (a.1 < b.1 ∨ (a.1 = b.1 ∧ a.2 < b.2)) := by
  rw [← natPairLt_iff a b]
  exact ⟨fun h hc => (by rw [h] at hc; cases hc), fun h => Bool.eq_false_iff.mpr h⟩

theorem keyLt_asymm {x y : List Char × Nat × Nat} (h : keyLt x y = true) :
    keyLt y x = false := by
  unfold keyLt at h ⊢
  by_cases h1 : lexLt x.1 y.1 = true
  · rw [if_neg (by rw [lexLt_asymm h1]; exact Bool.false_ne_true), if_pos h1]
  · have h1f : lexLt x.1 y.1 = false := Bool.eq_false_iff.mpr h1
    rw [if_neg h1] at h
    by_cases h2 : lexLt y.1 x.1 = true
    · rw [if_pos h2] at h; cases h
    · have h2f : lexLt y.1 x.1 = false := Bool.eq_false_iff.mpr h2
      rw [if_neg h2] at h
      rw [if_neg h2, if_neg h1]
      rw [natPairLt_iff] at h
      rw [natPairLt_false_iff]
      omega

theorem keyLt_trans {x y z : List Char × Nat × Nat}
    (h1 : keyLt x y = true) (h2 : keyLt y z = true) : keyLt x z = true := by
  unfold keyLt at h1 h2 ⊢
  by_cases a1 : lexLt x.1 y.1 = true
  · by_cases b1 : lexLt y.1 z.1 = true
    · rw [if_pos (lexLt_trans a1 b1)]
    · rw [if_neg b1] at h2
      by_cases b2 : lexLt z.1 y.1 = true
      · rw [if_pos b2] at h2; cases h2
      · have hyz : y.1 = z.1 :=
          lexLt_eq_of_not (Bool.eq_false_iff.mpr b1) (Bool.eq_false_iff.mpr b2)
        rw [if_pos (hyz ▸ a1)]
  · rw [if_neg a1] at h1
    by_cases a2 : lexLt y.1 x.1 = true
    · rw [if_pos a2] at h1; cases h1
    · rw [if_neg a2] at h1
      have hxy : x.1 = y.1 :=
        lexLt_eq_of_not (Bool.eq_false_iff.mpr a1) (Bool.eq_false_iff.mpr a2)
      by_cases b1 : lexLt y.1 z.1 = true
      · rw [if_pos (hxy ▸ b1)]
      · rw [if_neg b1] at h2
        by_cases b2 : lexLt z.1 y.1 = true
        · rw [if_pos b2] at h2; cases h2
        · rw [if_neg b2] at h2
          have hyz : y.1 = z.1 :=
            lexLt_eq_of_not (Bool.eq_false_iff.mpr b1) (Bool.eq_false_iff.mpr b2)
          have hxz : x.1 = z.1 := hxy.trans hyz
          rw [if_neg (fun hc => by rw [hxz, lexLt_irrefl] at hc; cases hc),
            if_neg (fun hc => by rw [hxz, lexLt_irrefl] at hc; cases hc)]
          rw [natPairLt_iff] at h1 h2 ⊢
          omega

theorem keyLt_conn {x y : List Char × Nat × Nat}
    (h1 : keyLt x y = false) (h2 : keyLt y x = false) : x = y := by
  unfold keyLt at h1 h2
  by_cases a1 : lexLt x.1 y.1 = true
  · rw [if_pos a1] at h1; cases h1
  · by_cases a2 : lexLt y.1 x.1 = true
    · rw [if_pos a2] at h2; cases h2
    · rw [if_neg a1, if_neg a2] at h1
      rw [if_neg a2, if_neg a1] at h2
      have hf : x.1 = y.1 :=
        lexLt_eq_of_not (Bool.eq_false_iff.mpr a1) (Bool.eq_false_iff.mpr a2)
      rw [natPairLt_false_iff] at h1 h2
      have hp : x.2 = y.2 := by
        have : x.2.1 = y.2.1 ∧ x.2.2 = y.2.2 := by omega
        exact Prod.ext this.1 this.2
      exact Prod.ext hf hp

theorem byLocationLess_eq_keyLt (a b : OutParamError)
    (htext : a.pos.filename = b.pos.filename → a.pos.line = b.pos.line → a.line = b.line) :
    byLocationLess a b = keyLt (vkey a) (vkey b) := by
  unfold byLocationLess keyLt vkey natPairLt
  by_cases hf : a.pos.filename = b.pos.filename
  · rw [if_neg (fun hne => hne hf), hf, lexLt_irrefl]
    rw [if_neg (Bool.false_ne_true), if_neg (Bool.false_ne_true)]
    by_cases hl : a.pos.line = b.pos.line
    · rw [if_neg (fun hne => hne hl), hl]
      rw [if_neg (lt_irrefl b.pos.line), if_neg (lt_irrefl b.pos.line)]
      have ht := htext hf hl
      by_cases hc : a.pos.column < b.pos.column
      · rw [if_pos hc, decide_eq_true hc]
      · rw [if_neg hc, ht, lexLt_irrefl, decide_eq_false hc]
    · rw [if_pos hl]
      by_cases h1 : a.pos.line < b.pos.line
      · rw [if_pos h1, decide_eq_true h1]
      · have h2 : b.pos.line < a.pos.line := by omega
        rw [if_neg h1, if_pos h2, decide_eq_false h1]
  · rw [if_pos hf]
    by_cases h1 : lexLt a.pos.filename.data b.pos.filename.data = true
    · rw [if_pos h1, h1]
    · have h2 : lexLt b.pos.filename.data a.pos.filename.data = true := by
        by_cases h2 : lexLt b.pos.filename.data a.pos.filename.data = true
        · exact h2
        · exact absurd (stringData_inj (lexLt_eq_of_not (Bool.eq_false_iff.mpr h1)
            (Bool.eq_false_iff.mpr h2))) hf
      rw [if_neg h1, if_pos h2, Bool.eq_false_iff]
      exact h1

theorem sorted_orderedInsert_local {α : Type} (r : α → α → Prop) [DecidableRel r] (a : α) :
    ∀ L : List α, L.Sorted r →
      (∀ b ∈ L, r a b ∨ r b a) →
      (∀ b ∈ L, ∀ c ∈ L, r a b → r b c → r a c) →
      (List.orderedInsert r a L).Sorted r
  | [], _, _, _ => List.sorted_singleton a
  | b :: L, S, tot, htrans => by
    obtain ⟨S1, S2⟩ := List.sorted_cons.mp S
    rw [List.orderedInsert]
    by_cases hab : r a b
    · rw [if_pos hab, List.sorted_cons]
      refine ⟨?_, S⟩
      intro x hx
      rcases List.mem_cons.mp hx with rfl | hxL
      · exact hab
      · exact htrans b (List.mem_cons_self b L) x (List.mem_cons_of_mem b hxL) hab (S1 x hxL)
    · rw [if_neg hab, List.sorted_cons]
      constructor
      · intro x hx
        rcases (List.mem_orderedInsert r).mp hx with rfl | hxL
        · rcases tot b (List.mem_cons_self b L) with h | h
          · exact absurd h hab
          · exact h
        · exact S1 x hxL
      · exact sorted_orderedInsert_local r a L S2
          (fun c hc => tot c (List.mem_cons_of_mem b hc))
          (fun c hc d hd => htrans c (List.mem_cons_of_mem b hc) d (List.mem_cons_of_mem b hd))

theorem sorted_insertionSort_local {α : Type} (r : α → α → Prop) [DecidableRel r] :
    ∀ l : List α,
      (∀ a ∈ l, ∀ b ∈ l, r a b ∨ r b a) →
      (∀ a ∈ l, ∀ b ∈ l, ∀ c ∈ l, r a b → r b c → r a c) →
      (List.insertionSort r l).Sorted r
  | [], _, _ => List.sorted_nil
  | a :: l, tot, htrans => by
    rw [List.insertionSort]
    have hmem : ∀ x ∈ List.insertionSort r l, x ∈ l :=
      fun x hx => (List.perm_insertionSort r l).mem_iff.mp hx
    refine sorted_orderedInsert_local r a (List.insertionSort r l)
      (sorted_insertionSort_local r l
        (fun x hx y hy => tot x (List.mem_cons_of_mem a hx) y (List.mem_cons_of_mem a hy))
        (fun x hx y hy z hz => htrans x (List.mem_cons_of_mem a hx) y
          (List.mem_cons_of_mem a hy) z (List.mem_cons_of_mem a hz)))
      ?_ ?_
    · intro x hx
      exact tot a (List.mem_cons_self a l) x (List.mem_cons_of_mem a (hmem x hx))
    · intro x hx y hy
      exact htrans a (List.mem_cons_self a l) x (List.mem_cons_of_mem a (hmem x hx)) y
        (List.mem_cons_of_mem a (hmem y hy))

theorem eq_of_sorted_perm_local {α : Type} (r : α → α → Prop) :
    ∀ (l₁ l₂ : List α), l₁.Perm l₂ → l₁.Sorted r → l₂.Sorted r →
      (∀ a ∈ l₁, ∀ b ∈ l₁, r a b → r b a → a = b) → l₁ = l₂
  | [], l₂, p, _, _, _ => (p.symm.eq_nil).symm
  | a :: t₁, [], p, _, _, _ => absurd (p.eq_nil) (by simp)
  | a :: t₁, b :: t₂, p, s₁, s₂, anti => by
    obtain ⟨s₁h, s₁t⟩ := List.sorted_cons.mp s₁
    obtain ⟨s₂h, s₂t⟩ := List.sorted_cons.mp s₂
    have hab : a = b := by
      have ha : a ∈ b :: t₂ := p.mem_iff.mp (List.mem_cons_self a t₁)
      have hb : b ∈ a :: t₁ := p.symm.mem_iff.mp (List.mem_cons_self b t₂)
      rcases List.mem_cons.mp ha with h | ha2
      · exact h
      · rcases List.mem_cons.mp hb with h | hb2
        · exact h.symm
        · exact anti a (List.mem_cons_self a t₁) b (List.mem_cons_of_mem a hb2)
            (s₁h b hb2) (s₂h a ha2)
    subst hab
    have pt : t₁.Perm t₂ := p.cons_inv
    rw [eq_of_sorted_perm_local r t₁ t₂ pt s₁t s₂t
      (fun x hx y hy => anti x (List.mem_cons_of_mem a hx) y (List.mem_cons_of_mem a hy))]

theorem vioLe_total_good {l : List OutParamError} (good : GoodText l) :
    ∀ a ∈ l, ∀ b ∈ l, vioLe a b ∨ vioLe b a := by
  intro a ha b hb
  unfold vioLe
  rw [byLocationLess_eq_keyLt b a
      (fun h1 h2 => good b hb a ha h1 h2),
    byLocationLess_eq_keyLt a b (fun h1 h2 => good a ha b hb h1 h2)]
  by_cases h : keyLt (vkey b) (vkey a) = true
  · exact Or.inr (keyLt_asymm h)
  · exact Or.inl (Bool.eq_false_iff.mpr h)

theorem vioLe_trans_good {l : List OutParamError} (good : GoodText l) :
    ∀ a ∈ l, ∀ b ∈ l, ∀ c ∈ l, vioLe a b → vioLe b c → vioLe a c := by
  intro a ha b hb c hc h1 h2
  unfold vioLe at h1 h2 ⊢
  rw [byLocationLess_eq_keyLt b a (fun u v => good b hb a ha u v)] at h1
  rw [byLocationLess_eq_keyLt c b (fun u v => good c hc b hb u v)] at h2
  rw [byLocationLess_eq_keyLt c a (fun u v => good c hc a ha u v)]
  by_cases hca : keyLt (vkey c) (vkey a) = true
  · by_cases hakb : keyLt (vkey a) (vkey b) = true
    · rw [keyLt_trans hca hakb] at h2
      cases h2
    · have hq : vkey a = vkey b := keyLt_conn (Bool.eq_false_iff.mpr hakb) h1
      rw [← hq, hca] at h2
      cases h2
  · exact Bool.eq_false_iff.mpr hca

theorem vioLe_antisymm_inj {l : List OutParamError} (good : GoodText l) (inj : KeyInj l) :
    ∀ a ∈ l, ∀ b ∈ l, vioLe a b → vioLe b a → a = b := by
  intro a ha b hb h1 h2
  unfold vioLe at h1 h2
  rw [byLocationLess_eq_keyLt b a (fun u v => good b hb a ha u v)] at h1
  rw [byLocationLess_eq_keyLt a b (fun u v => good a ha b hb u v)] at h2
  have hk : vkey a = vkey b := keyLt_conn h2 h1
  unfold vkey at hk
  have h1' := congrArg Prod.fst hk
  have h2' := congrArg (fun q => q.2.1) hk
  have h3' := congrArg (fun q => q.2.2) hk
  simp only at h1' h2' h3'
  exact inj a ha b hb (stringData_inj h1') h2' h3'

theorem goodText_of_perm {l₁ l₂ : List OutParamError} (p : l₁.Perm l₂)
    (good : GoodText l₁) : GoodText l₂ :=
  fun a ha b hb => good a (p.mem_iff.mpr ha) b (p.mem_iff.mpr hb)

theorem keyInj_of_perm {l₁ l₂ : List OutParamError} (p : l₁.Perm l₂)
    (inj : KeyInj l₁) : KeyInj l₂ :=
  fun a ha b hb => inj a (p.mem_iff.mpr ha) b (p.mem_iff.mpr hb)

theorem sortErrs_sorted {l : List OutParamError} (good : GoodText l) :
    (sortErrs l).Sorted vioLe :=
  sorted_insertionSort_local vioLe l (vioLe_total_good good) (vioLe_trans_good good)

theorem sortErrs_eq_of_perm {l₁ l₂ : List OutParamError} (p : l₁.Perm l₂)
    (good : GoodText l₁) (inj : KeyInj l₁) : sortErrs l₁ = sortErrs l₂ := by
  have good₂ : GoodText l₂ := goodText_of_perm p good
  have inj₂ : KeyInj l₂ := keyInj_of_perm p inj
  have ps : (sortErrs l₁).Perm (sortErrs l₂) :=
    ((List.perm_insertionSort vioLe l₁).trans p).trans (List.perm_insertionSort vioLe l₂).symm
  have goodS : GoodText (sortErrs l₁) :=
    goodText_of_perm (List.perm_insertionSort vioLe l₁).symm good
  have injS : KeyInj (sortErrs l₁) :=
    keyInj_of_perm (List.perm_insertionSort vioLe l₁).symm inj
  exact eq_of_sorted_perm_local vioLe (sortErrs l₁) (sortErrs l₂) ps
    (sortErrs_sorted good) (sortErrs_sorted good₂)
    (vioLe_antisymm_inj goodS injS)

theorem optPerm_refl (o : Option (List OutParamError)) : OptPerm o o := by
  cases o with
  | none => trivial
  | some l => exact List.Perm.refl l

theorem optPerm_trans {a b c : Option (List OutParamError)}
    (h1 : OptPerm a b) (h2 : OptPerm b c) : OptPerm a c := by
  cases a <;> cases b <;> cases c <;> simp_all [OptPerm]
  exact h1.trans h2

theorem appOpt_optPerm {a a2 b b2 : Option (List OutParamError)}
    (h1 : OptPerm a a2) (h2 : OptPerm b b2) : OptPerm (appOpt a b) (appOpt a2 b2) := by
  cases a <;> cases a2 <;> cases b <;> cases b2 <;> simp_all [OptPerm, appOpt]
  exact h1.append h2

theorem appOpt_swap (x y z : Option (List OutParamError)) :
    OptPerm (appOpt x (appOpt y z)) (appOpt y (appOpt x z)) := by
  cases x <;> cases y <;> cases z <;> simp [OptPerm, appOpt]
  exact List.perm_append_comm_assoc _ _ _

theorem checkRules_perm (fl : FileLines) (args : List GoExpr) (key method : String)
    {cfg₁ cfg₂ : Config} (p : cfg₁.Perm cfg₂) :
    OptPerm (checkRules fl args key method cfg₁) (checkRules fl args key method cfg₂) := by
  induction p with
  | nil => exact optPerm_refl _
  | cons x _ ih =>
    rw [checkRules, checkRules]
    exact appOpt_optPerm (optPerm_refl _) ih
  | swap x y l =>
    rw [checkRules, checkRules, checkRules, checkRules]
    exact appOpt_swap _ _ _
  | trans _ _ ih1 ih2 => exact optPerm_trans ih1 ih2

theorem processCall_perm (fl : FileLines) (fn : Callee) (args : List GoExpr)
    {cfg₁ cfg₂ : Config} (p : cfg₁.Perm cfg₂) :
    OptPerm (processCall fl cfg₁ fn args) (processCall fl cfg₂ fn args) := by
  unfold processCall
  cases keyAndName fn with
  | none => exact optPerm_refl _
  | some kn => exact checkRules_perm fl args kn.1 kn.2 p

theorem strEqGo_iff {a b : String} : strEqGo a b = true ↔ a = b := by
  unfold strEqGo
  constructor
  · intro h
    exact stringData_inj (by exact beq_iff_eq.mp h)
  · intro h
    rw [h]
    exact beq_iff_eq.mpr rfl

theorem lookupGo_map_replace_ne (k k2 : String) (v : List Nat) (hne : k ≠ k2) :
    ∀ m : Config,
      lookupGo k2 (m.map (fun e => if strEqGo e.1 k then (k, v) else e)) = lookupGo k2 m
  | [] => rfl
  | e :: m => by
    rw [List.map_cons]
    by_cases he : strEqGo e.1 k = true
    · have hek : e.1 = k := strEqGo_iff.mp he
      rw [if_pos he, lookupGo, lookupGo,
        if_neg (fun hc => hne (strEqGo_iff.mp hc)),
        if_neg (fun hc => hne (hek ▸ strEqGo_iff.mp hc))]
      exact lookupGo_map_replace_ne k k2 v hne m
    · rw [if_neg he, lookupGo, lookupGo]
      by_cases h2 : strEqGo e.1 k2 = true
      · rw [if_pos h2, if_pos h2]
      · rw [if_neg h2, if_neg h2]
        exact lookupGo_map_replace_ne k k2 v hne m

theorem lookupGo_map_replace_eq (k : String) (v : List Nat) :
    ∀ m : Config, m.any (fun e => strEqGo e.1 k) = true →
      lookupGo k (m.map (fun e => if strEqGo e.1 k then (k, v) else e)) = some v
  | [], h => by cases h
  | e :: m, h => by
    rw [List.map_cons]
    by_cases he : strEqGo e.1 k = true
    · rw [if_pos he, lookupGo, if_pos (strEqGo_iff.mpr rfl)]
    · rw [if_neg he, lookupGo, if_neg he]
      have ht : m.any (fun e => strEqGo e.1 k) = true := by
        rw [List.any_cons] at h
        rcases Bool.or_eq_true_iff.mp h with h1 | h1
        · exact absurd h1 he
        · exact h1
      exact lookupGo_map_replace_eq k v m ht

theorem lookupGo_append (k : String) :
    ∀ m1 m2 : Config, lookupGo k (m1 ++ m2) =
      match lookupGo k m1 with
      | some v => some v
      | none => lookupGo k m2
  | [], _ => rfl
  | e :: m1, m2 => by
    rw [List.cons_append, lookupGo, lookupGo]
    by_cases he : strEqGo e.1 k = true
    · rw [if_pos he, if_pos he]
    · rw [if_neg he, if_neg he]
      exact lookupGo_append k m1 m2

theorem lookupGo_none_of_not_any (k : String) :
    ∀ m : Config, m.any (fun e => strEqGo e.1 k) = false → lookupGo k m = none
  | [], _ => rfl
  | e :: m, h => by
    rw [List.any_cons] at h
    rcases Bool.or_eq_false_iff.mp h with ⟨h1, h2⟩
    rw [lookupGo, if_neg (fun hc => by rw [hc] at h1; cases h1)]
    exact lookupGo_none_of_not_any k m h2

theorem lookupGo_insertGo (m : Config) (k k2 : String) (v : List Nat) :
    lookupGo k2 (insertGo m k v) = if k = k2 then some v else lookupGo k2 m := by
  unfold insertGo
  by_cases hany : m.any (fun e => strEqGo e.1 k) = true
  · rw [if_pos hany]
    by_cases hk : k = k2
    · subst hk
      rw [if_pos rfl]
      exact lookupGo_map_replace_eq k v m hany
    · rw [if_neg hk]
      exact lookupGo_map_replace_ne k k2 v hk m
  · rw [if_neg hany, lookupGo_append]
    by_cases hk : k = k2
    · subst hk
      rw [if_pos rfl,
        lookupGo_none_of_not_any k m (Bool.eq_false_iff.mpr hany), lookupGo,
        if_pos (strEqGo_iff.mpr rfl)]
    · rw [if_neg hk]
      cases hm : lookupGo k2 m with
      | some w => rfl
      | none =>
        rw [lookupGo, if_neg (fun hc => hk (strEqGo_iff.mp hc)), lookupGo]

theorem lookupGo_copyInto (k : String) :
    ∀ (src : List (String × List Nat)) (dst : Config),
      lookupGo k (copyInto dst src) =
        match lookupGo k src.reverse with
        | some v => some v
        | none => lookupGo k dst
  | [], dst => rfl
  | e :: rest, dst => by
    rw [copyInto, lookupGo_copyInto k rest (insertGo dst e.1 e.2), List.reverse_cons,
      lookupGo_append, lookupGo_insertGo]
    cases hr : lookupGo k rest.reverse with
    | some w => rfl
    | none =>
      by_cases he : e.1 = k
      · rw [if_pos he, lookupGo, if_pos (strEqGo_iff.mpr he)]
      · rw [if_neg he, lookupGo, if_neg (fun hc => he (strEqGo_iff.mp hc)), lookupGo]

theorem lookupGo_not_mem_keys (k : String) :
    ∀ m : Config, k ∉ m.map Prod.fst → lookupGo k m = none
  | [], _ => rfl
  | e :: m, h => by
    rw [List.map_cons] at h
    rw [lookupGo, if_neg (fun hc => h (by
      rw [strEqGo_iff.mp hc]
      exact List.mem_cons_self k _))]
    exact lookupGo_not_mem_keys k m (fun hc => h (List.mem_cons_of_mem e.1 hc))

theorem lookupGo_reverse_of_nodup (k : String) :
    ∀ m : Config, (m.map Prod.fst).Nodup → lookupGo k m.reverse = lookupGo k m
  | [], _ => rfl
  | e :: m, h => by
    rw [List.map_cons, List.nodup_cons] at h
    rw [List.reverse_cons, lookupGo_append, lookupGo_reverse_of_nodup k m h.2]
    by_cases he : strEqGo e.1 k = true
    · have hek : e.1 = k := strEqGo_iff.mp he
      rw [lookupGo_not_mem_keys k m (hek ▸ h.1)]
      simp [lookupGo, he]
    · cases hm : lookupGo k m with
      | some w => simp [lookupGo, he, hm]
      | none => simp [lookupGo, he, hm]

theorem loadCheckLoop_eq_find (pkgs : List GoPackage) :
    ∀ l : List GoPackage, loadCheckLoop pkgs l =
      match l.find? (fun p => !p.errs.isEmpty) with
      | some p => Except.error (loadErrMsg p)
      | none => Except.ok pkgs
  | [] => rfl
  | p :: rest => by
    rw [loadCheckLoop, List.find?_cons]
    cases herrs : p.errs with
    | nil =>
      rw [if_neg (by simp [herrs])]
      simp only [herrs, List.isEmpty_nil, Bool.not_true]
      exact loadCheckLoop_eq_find pkgs rest
    | cons e es =>
      rw [if_pos (by simp [herrs])]
      simp only [herrs, List.isEmpty_cons, Bool.not_false]

theorem startsWithChars_iff : ∀ {s pat : List Char},
    startsWithChars s pat = true ↔ ∃ t, s = pat ++ t
  | s, [] => by
    constructor
    · intro _
      exact ⟨s, rfl⟩
    · intro _
      cases s <;> rfl
  | [], b :: bs => by
    constructor
    · intro h
      cases h
    · intro ⟨t, ht⟩
      cases ht
  | a :: as, b :: bs => by
    rw [startsWithChars, Bool.and_eq_true]
    constructor
    · intro ⟨h1, h2⟩
      rcases startsWithChars_iff.mp h2 with ⟨t, ht⟩
      exact ⟨t, by rw [List.cons_append, ← ht, decide_eq_true_eq.mp h1]⟩
    · intro ⟨t, ht⟩
      rw [List.cons_append] at ht
      injection ht with h1 h2
      exact ⟨decide_eq_true (by rw [h1]), startsWithChars_iff.mpr ⟨t, h2⟩⟩

theorem firstMatchIdx_some : ∀ {s : List Char} {pat : List Char} {i : Nat},
    firstMatchIdx pat s = some i →
      (∃ pre suf, s = pre ++ pat ++ suf ∧ pre.length = i) ∧
        (∀ pre suf, s = pre ++ pat ++ suf → i ≤ pre.length)
  | [], pat, i, h => by
    rw [firstMatchIdx] at h
    by_cases hs : startsWithChars [] pat = true
    · rw [if_pos hs] at h
      injection h with h
      subst h
      rcases startsWithChars_iff.mp hs with ⟨t, ht⟩
      exact ⟨⟨[], t, by rw [List.nil_append]; exact ht, rfl⟩, fun pre suf _ => Nat.zero_le _⟩
    · rw [if_neg hs] at h
      cases h
  | c :: t, pat, i, h => by
    rw [firstMatchIdx] at h
    by_cases hs : startsWithChars (c :: t) pat = true
    · rw [if_pos hs] at h
      injection h with h
      subst h
      rcases startsWithChars_iff.mp hs with ⟨u, hu⟩
      exact ⟨⟨[], u, by rw [List.nil_append]; exact hu, rfl⟩, fun pre suf _ => Nat.zero_le _⟩
    · rw [if_neg hs] at h
      cases hrec : firstMatchIdx pat t with
      | none => rw [hrec] at h; cases h
      | some j =>
        rw [hrec] at h
        simp only [Option.map_some'] at h
        injection h with h
        subst h
        rcases firstMatchIdx_some hrec with ⟨⟨pre, suf, hdec, hlen⟩, hmin⟩
        constructor
        · exact ⟨c :: pre, suf, by rw [List.cons_append, List.cons_append, ← hdec],
            by rw [List.length_cons, hlen]⟩
        · intro pre2 suf2 hd2
          cases pre2 with
          | nil =>
            exfalso
            apply hs
            apply startsWithChars_iff.mpr
            exact ⟨suf2, by simpa using hd2⟩
          | cons d pre2q =>
            rw [List.cons_append, List.cons_append] at hd2
            injection hd2 with hd2a hd2b
            rw [List.length_cons]
            have := hmin pre2q suf2 (by rw [hd2b])
            omega

theorem firstMatchIdx_none : ∀ {s : List Char} {pat : List Char},
    firstMatchIdx pat s = none → ∀ pre suf, s ≠ pre ++ pat ++ suf
  | [], pat, h => by
    rw [firstMatchIdx] at h
    by_cases hs : startsWithChars [] pat = true
    · rw [if_pos hs] at h; cases h
    · intro pre suf hd
      apply hs
      apply startsWithChars_iff.mpr
      cases pre with
      | nil => exact ⟨suf, by simpa using hd⟩
      | cons d q => cases hd
  | c :: t, pat, h => by
    rw [firstMatchIdx] at h
    by_cases hs : startsWithChars (c :: t) pat = true
    · rw [if_pos hs] at h; cases h
    · rw [if_neg hs] at h
      cases hrec : firstMatchIdx pat t with
      | some j => rw [hrec] at h; cases h
      | none =>
        intro pre suf hd
        cases pre with
        | nil =>
          apply hs
          apply startsWithChars_iff.mpr
          exact ⟨suf, by simpa using hd⟩
        | cons d q =>
          rw [List.cons_append, List.cons_append] at hd
          injection hd with hda hdb
          exact firstMatchIdx_none hrec q suf hdb

theorem drop_of_decomp {s pre pat suf : List Char} {i : Nat}
    (hd : s = pre ++ pat ++ suf) (hlen : pre.length = i) :
    s.drop (i + pat.length) = suf := by
  subst hlen
  rw [hd, List.append_assoc, ← List.drop_drop, List.drop_left]
  exact List.drop_left pat suf

theorem isAddr_iff_spec : ∀ e : GoExpr, isAddr e = true ↔ IsAddressSpec e
  | .unary op x p => by
    constructor
    · intro h
      simp only [isAddr, decide_eq_true_eq] at h
      subst h
      exact .addrOf x p
    · intro h
      cases h
      simp [isAddr]
  | .star x p => by
    cases x with
    | unary op y q =>
      constructor
      · intro h
        simp only [isAddr, decide_eq_true_eq] at h
        subst h
        exact .derefAddrOf y p q
      · intro h
        cases h
        simp [isAddr]
    | star y q => exact ⟨fun h => (by simp [isAddr] at h), fun h => (by cases h)⟩
    | ident n d q => exact ⟨fun h => (by simp [isAddr] at h), fun h => (by cases h)⟩
    | binary a b q => exact ⟨fun h => (by simp [isAddr] at h), fun h => (by cases h)⟩
    | keyValue a b q => exact ⟨fun h => (by simp [isAddr] at h), fun h => (by cases h)⟩
    | composite es q => exact ⟨fun h => (by simp [isAddr] at h), fun h => (by cases h)⟩
    | callE fn args q => exact ⟨fun h => (by simp [isAddr] at h), fun h => (by cases h)⟩
    | paren y q => exact ⟨fun h => (by simp [isAddr] at h), fun h => (by cases h)⟩
    | lit q => exact ⟨fun h => (by simp [isAddr] at h), fun h => (by cases h)⟩
  | .ident name (some (.assign lhs r rs)) p => by
    constructor
    · intro h
      simp only [isAddr] at h
      exact .traced name lhs r rs p ((isAddr_iff_spec r).mp h)
    · intro h
      cases h with
      | nilLit d p hne => exact absurd rfl (hne lhs r rs)
      | traced n lhs r rs p hr =>
        simp only [isAddr]
        exact (isAddr_iff_spec r).mpr hr
  | .ident name (some .otherDecl) p => by
    constructor
    · intro h
      simp only [isAddr, decide_eq_true_eq] at h
      subst h
      exact .nilLit (some .otherDecl) p (fun lhs r rs hq => (by cases hq))
    · intro h
      cases h
      simp [isAddr]
  | .ident name none p => by
    constructor
    · intro h
      simp only [isAddr, decide_eq_true_eq] at h
      subst h
      exact .nilLit none p (fun lhs r rs hq => (by cases hq))
    · intro h
      cases h
      simp [isAddr]
  | .binary x y p => ⟨fun h => (by simp [isAddr] at h), fun h => (by cases h)⟩
  | .keyValue k v p => ⟨fun h => (by simp [isAddr] at h), fun h => (by cases h)⟩
  | .composite es p => ⟨fun h => (by simp [isAddr] at h), fun h => (by cases h)⟩
  | .callE fn args p => ⟨fun h => (by simp [isAddr] at h), fun h => (by cases h)⟩
  | .paren x p => ⟨fun h => (by simp [isAddr] at h), fun h => (by cases h)⟩
  | .lit p => ⟨fun h => (by simp [isAddr] at h), fun h => (by cases h)⟩

/-- C1 (counterexample).  The claim says a rule whose index is greater than
or equal to the call's argument count is bounds-checked and skipped (or
treated as a configuration error) and that the matcher never indexes the
argument list out of bounds.  On the code this is false: for the rule
`encoding/json.Unmarshal -> [1]` and a matching call with a single
argument, `processExpression` evaluates `call.Args[1]` unchecked and the
analysis panics (modelled by `none`); a skipped rule would instead yield
`some []`. -/
theorem C1_unbounded_index_panics :
    processExpression emptyLines [("encoding/json.Unmarshal", [1])]
      (GoExpr.callE (Callee.selector (some "encoding/json") none "Unmarshal")
        [GoExpr.ident "j" none ⟨"main.go", 0, 11, 17⟩] ⟨"main.go", 0, 11, 16⟩)
    = none := by decide

/-- C1 (amended).  No bounds check is performed: the matcher indexes the
argument list directly.  Whenever every suffix-matching rule configures
only indices below the call's actual argument count, the analysis of the
call succeeds without panicking, and every produced Violation's argument
index is a valid index into that call's argument list. -/
theorem C1_bounds (fl : FileLines) (cfg : Config) (fn : Callee) (args : List GoExpr)
    (key method : String) (hk : keyAndName fn = some (key, method))
    (hin : ∀ r ∈ cfg, hasSuffixGo key r.1 = true → ∀ i ∈ r.2, i < args.length) :
    ∃ vs, processCall fl cfg fn args = some vs ∧
      ∀ v ∈ vs, v.argument < args.length := by
  unfold processCall
  rw [hk]
  rcases checkRules_isSome fl args key method cfg hin with ⟨vs, hvs⟩
  refine ⟨vs, hvs, ?_⟩
  intro v hv
  rcases checkRules_mem fl args key method cfg vs hvs v hv with ⟨r, _, _, _, hb⟩
  exact hb

/-- C1 witness: a matched two-argument call under the in-range default rule
`encoding/json.Unmarshal -> [1]` is analyzed without a panic. -/
theorem C1_bounds_witness :
    ∃ vs, processCall emptyLines [("encoding/json.Unmarshal", [1])]
        (Callee.selector (some "encoding/json") none "Unmarshal")
        [GoExpr.ident "j" none ⟨"main.go", 0, 11, 17⟩,
          GoExpr.ident "x" none ⟨"main.go", 0, 11, 20⟩] = some vs ∧
      ∀ v ∈ vs, v.argument <
        [GoExpr.ident "j" none ⟨"main.go", 0, 11, 17⟩,
          GoExpr.ident "x" none ⟨"main.go", 0, 11, 20⟩].length :=
  C1_bounds emptyLines [("encoding/json.Unmarshal", [1])]
    (Callee.selector (some "encoding/json") none "Unmarshal")
    [GoExpr.ident "j" none ⟨"main.go", 0, 11, 17⟩,
      GoExpr.ident "x" none ⟨"main.go", 0, 11, 20⟩]
    "encoding/json.Unmarshal" "Unmarshal" (by decide) (by decide)

/-- C2 (counterexample).  The claim says a call nested inside another
call's argument list, such as `g(x)` inside `f(g(x))`, is itself visited
and checked as a call site.  On the code this is false: with the rule
`pkg.g -> [0]` and the statement `f(g(x))` where `x` is not
address-taking, the traversal produces no violation (`processExpression`
does not descend into a call's arguments), although checking the inner
call `g(x)` as a call site produces one. -/
theorem C2_inner_call_not_checked :
    visitStmt emptyLines [("pkg.g", [0])]
      (Stmt.exprStmt
        (GoExpr.callE (Callee.identFn "f" (some "pkg"))
          [GoExpr.callE (Callee.identFn "g" (some "pkg"))
            [GoExpr.lit ⟨"a.go", 0, 3, 7⟩] ⟨"a.go", 0, 3, 5⟩]
          ⟨"a.go", 0, 3, 3⟩))
      = some [] ∧
    checkCallNode emptyLines [("pkg.g", [0])]
      (GoExpr.callE (Callee.identFn "g" (some "pkg"))
        [GoExpr.lit ⟨"a.go", 0, 3, 7⟩] ⟨"a.go", 0, 3, 5⟩)
      = some [⟨⟨"a.go", 0, 3, 7⟩, "", "g", 0⟩] := by decide

/-- C2 (amended).  The expression traversal checks as call sites exactly
the call expressions reachable by descending through binary-expression
operands, key-value values and composite-literal elements, each exactly
once in pre-order (`checkedCalls`); a call expression is collected itself,
and its arguments and callee are not descended into, so calls nested in
other positions (another call's argument list or callee, parentheses,
unary or star operands, identifiers) are not checked. -/
theorem C2_traversal_checked_calls (fl : FileLines) (cfg : Config) :
    (∀ e : GoExpr,
      processExpression fl cfg e = seqChecks (checkCallNode fl cfg) (checkedCalls e)) ∧
    (∀ (fn : Callee) (args : List GoExpr) (p : Position),
      checkedCalls (GoExpr.callE fn args p) = [GoExpr.callE fn args p]) :=
  ⟨fun e => processExpression_factor fl cfg e, fun _ _ _ => rfl⟩

/-- C3.  The address classifier accepts exactly the address-of unary
expressions, dereferences applied directly to an address-of expression,
the literal `nil`, and bare identifiers traced through their defining
simple assignment to an address-taking source expression
(`isAddr_iff_spec`); consequently, under the rule `pkg.f -> [0]`:
`f(*&x)` produces no violation, `f(nil)` produces no violation, `f(x)`
with `x := &y` produces no violation, and `f(x)` with `x := A{}` produces
a violation at argument index 0. -/
theorem C3_address_classifier :
    (∀ e : GoExpr, isAddr e = true ↔ IsAddressSpec e) ∧
    processCall emptyLines [("pkg.f", [0])] (Callee.identFn "f" (some "pkg"))
      [GoExpr.star (GoExpr.unary Tok.andOp (GoExpr.ident "x" none ⟨"a.go", 0, 5, 4⟩)
        ⟨"a.go", 0, 5, 3⟩) ⟨"a.go", 0, 5, 2⟩] = some [] ∧
    processCall emptyLines [("pkg.f", [0])] (Callee.identFn "f" (some "pkg"))
      [GoExpr.ident "nil" none ⟨"a.go", 0, 6, 2⟩] = some [] ∧
    processCall emptyLines [("pkg.f", [0])] (Callee.identFn "f" (some "pkg"))
      [GoExpr.ident "x"
        (some (GoDecl.assign ["x"]
          (GoExpr.unary Tok.andOp (GoExpr.ident "y" none ⟨"a.go", 0, 2, 8⟩) ⟨"a.go", 0, 2, 7⟩)
          [])) ⟨"a.go", 0, 7, 2⟩] = some [] ∧
    processCall emptyLines [("pkg.f", [0])] (Callee.identFn "f" (some "pkg"))
      [GoExpr.ident "x"
        (some (GoDecl.assign ["x"] (GoExpr.composite [] ⟨"a.go", 0, 2, 7⟩) []))
        ⟨"a.go", 0, 8, 2⟩] = some [⟨⟨"a.go", 0, 8, 2⟩, "", "f", 0⟩] :=
  ⟨isAddr_iff_spec, by decide, by decide, by decide, by decide⟩

/-- C4.  A call contributes violations under a rule key exactly when that
key is a string suffix of the call's derived identity: a call whose
identity matches no configured suffix yields zero violations regardless
of its arguments, and every produced violation stems from a rule whose
key is a suffix of the identity with the violation's index among that
rule's configured indices; concretely, a rule keyed `pkg.Foo` matches the
identities `pkg.Foo` and `vendor/other/pkg.Foo` but not `pkg.FooBar`. -/
theorem C4_suffix_matching (fl : FileLines) (cfg : Config) (fn : Callee)
    (args : List GoExpr) (key method : String)
    (hk : keyAndName fn = some (key, method)) :
    ((∀ r ∈ cfg, hasSuffixGo key r.1 = false) →
      processCall fl cfg fn args = some []) ∧
    (∀ vs, processCall fl cfg fn args = some vs → ∀ v ∈ vs,
      ∃ r ∈ cfg, hasSuffixGo key r.1 = true ∧ v.argument ∈ r.2) ∧
    processCall emptyLines [("pkg.Foo", [0])] (Callee.identFn "Foo" (some "pkg"))
      [GoExpr.lit ⟨"a.go", 0, 4, 9⟩] = some [⟨⟨"a.go", 0, 4, 9⟩, "", "Foo", 0⟩] ∧
    processCall emptyLines [("pkg.Foo", [0])]
      (Callee.identFn "Foo" (some "vendor/other/pkg"))
      [GoExpr.lit ⟨"a.go", 0, 5, 9⟩] = some [⟨⟨"a.go", 0, 5, 9⟩, "", "Foo", 0⟩] ∧
    processCall emptyLines [("pkg.Foo", [0])] (Callee.identFn "FooBar" (some "pkg"))
      [GoExpr.lit ⟨"a.go", 0, 6, 9⟩] = some [] := by
  refine ⟨?_, ?_, by decide, by decide, by decide⟩
  · intro hnone
    unfold processCall
    rw [hk]
    exact checkRules_no_match fl args key method cfg hnone
  · intro vs hvs v hv
    unfold processCall at hvs
    rw [hk] at hvs
    rcases checkRules_mem fl args key method cfg vs hvs v hv with ⟨r, hr, h1, h2, _⟩
    exact ⟨r, hr, h1, h2⟩

/-- C4 witness: a call whose identity `other.Bar` matches no configured
suffix produces zero violations. -/
theorem C4_suffix_matching_witness :
    processCall emptyLines [("pkg.Foo", [0])] (Callee.identFn "Bar" (some "other"))
      [GoExpr.lit ⟨"a.go", 0, 9, 9⟩] = some [] :=
  (C4_suffix_matching emptyLines [("pkg.Foo", [0])] (Callee.identFn "Bar" (some "other"))
    [GoExpr.lit ⟨"a.go", 0, 9, 9⟩] "other.Bar" "Bar" (by decide)).1 (by decide)

/-- C5.  The table merge of `Run` (user entries copied into an empty map,
then built-in defaults copied over them): a key found in the defaults
always resolves to the default value, so a user entry can never override a
default rule, and every key resolves to its default value when present
there, else to its user value, else to nothing — for disjoint key sets
that is exactly the union of the two tables. -/
theorem C5_merge (defaults user : Config)
    (hd : (defaults.map Prod.fst).Nodup) (hu : (user.map Prod.fst).Nodup) :
    (∀ k, lookupGo k (mergeCfg user defaults) =
      match lookupGo k defaults with
      | some v => some v
      | none => lookupGo k user) ∧
    (∀ k v1 v2, lookupGo k defaults = some v1 → lookupGo k user = some v2 →
      lookupGo k (mergeCfg user defaults) = some v1) := by
  have hmain : ∀ k, lookupGo k (mergeCfg user defaults) =
      match lookupGo k defaults with
      | some v => some v
      | none => lookupGo k user := by
    intro k
    unfold mergeCfg
    rw [lookupGo_copyInto k defaults (copyInto [] user),
      lookupGo_reverse_of_nodup k defaults hd]
    cases hdk : lookupGo k defaults with
    | some v => rfl
    | none =>
      rw [lookupGo_copyInto k user [], lookupGo_reverse_of_nodup k user hu]
      cases huk : lookupGo k user with
      | some v => rfl
      | none => rfl
  refine ⟨hmain, ?_⟩
  intro k v1 v2 h1 _
  rw [hmain k, h1]

/-- C5 witness: with default table `a -> [1]` and user table
`a -> [2], b -> [3]`, the merged table yields the default value for the
shared key `a`. -/
theorem C5_merge_witness :
    lookupGo "a" (mergeCfg [("a", [2]), ("b", [3])] [("a", [1])]) = some [1] :=
  (C5_merge [("a", [1])] [("a", [2]), ("b", [3])] (by decide) (by decide)).2
    "a" [1] [2] (by decide) (by decide)

/-- C6 (counterexample).  The claim says the reporter's order is the
stable lexicographic key (file, line, column, raw text), so of two
violations in the same file and line the one with the smaller column
precedes.  On the code this is false: the comparator falls through to the
raw-text comparison whenever the first column is not strictly smaller, so
for two same-file same-line violations with columns 5 and 3 and texts
`aaa` and `bbb`, the sorted output puts column 5 first. -/
theorem C6_larger_column_first :
    sortErrs [⟨⟨"a.go", 0, 7, 3⟩, "bbb", "m", 1⟩, ⟨⟨"a.go", 0, 7, 5⟩, "aaa", "m", 0⟩]
      = [⟨⟨"a.go", 0, 7, 5⟩, "aaa", "m", 0⟩, ⟨⟨"a.go", 0, 7, 3⟩, "bbb", "m", 1⟩] := by
  decide

/-- C6 (amended).  The reporter sorts with the comparator of
`byLocation.Less`: by file path, then line, then `true` when the first
column is strictly smaller, otherwise falling through to the raw
source-line text.  Whenever two violations on the same file and line
carry the same raw text — which is the case in every actual run, the text
being the cached source line of that file and line — the comparator
orders exactly by (file, line, column), the smaller column preceding; on
such violation lists the sorted output is ordered by the comparator; and
on the concrete example `{b.go:5, a.go:10, a.go:3}` the output order is
`a.go:3`, `a.go:10`, `b.go:5`. -/
theorem C6_report_ordering :
    sortErrs [⟨⟨"b.go", 0, 5, 1⟩, "zz", "m", 0⟩, ⟨⟨"a.go", 0, 10, 1⟩, "yy", "m", 1⟩,
        ⟨⟨"a.go", 0, 3, 1⟩, "xx", "m", 2⟩]
      = [⟨⟨"a.go", 0, 3, 1⟩, "xx", "m", 2⟩, ⟨⟨"a.go", 0, 10, 1⟩, "yy", "m", 1⟩,
        ⟨⟨"b.go", 0, 5, 1⟩, "zz", "m", 0⟩] ∧
    (∀ v w : OutParamError, v.pos.filename = w.pos.filename →
      v.pos.line = w.pos.line → v.line = w.line →
      (byLocationLess v w = true ↔ v.pos.column < w.pos.column)) ∧
    (∀ l : List OutParamError, GoodText l → (sortErrs l).Sorted vioLe) := by
  refine ⟨by decide, ?_, fun l g => sortErrs_sorted g⟩
  intro v w h1 h2 h3
  rw [byLocationLess_eq_keyLt v w (fun _ _ => h3)]
  simp only [keyLt, vkey, natPairLt, h1, h2, lexLt_irrefl, Bool.false_eq_true, if_false,
    lt_irrefl, decide_eq_true_eq]

/-- C6 witness: of two same-file, same-line, same-text violations with
columns 2 and 9, the comparator puts the smaller column strictly first. -/
theorem C6_report_ordering_witness :
    byLocationLess ⟨⟨"a.go", 0, 7, 2⟩, "t", "m", 0⟩ ⟨⟨"a.go", 0, 7, 9⟩, "t", "m", 1⟩
      = true :=
  (C6_report_ordering.2.1 ⟨⟨"a.go", 0, 7, 2⟩, "t", "m", 0⟩
    ⟨⟨"a.go", 0, 7, 9⟩, "t", "m", 1⟩ rfl rfl rfl).mpr (by decide)

/-- C7.  Determinism of the analyzer on fixed input: permuting the rule
table (Go map iteration order) changes a call's analysis outcome at most
up to the order of the violations (and preserves panics), and for any
violation multiset satisfying the run invariants — same file and line
implies same cached text, and the position key determines the violation —
every arrival order at the collector (worker scheduling) yields the same
sorted violation list and hence byte-identical reported lines. -/
theorem C7_determinism :
    (∀ (fl : FileLines) (fn : Callee) (args : List GoExpr) (cfg₁ cfg₂ : Config),
      cfg₁.Perm cfg₂ →
        OptPerm (processCall fl cfg₁ fn args) (processCall fl cfg₂ fn args)) ∧
    (∀ l₁ l₂ : List OutParamError, l₁.Perm l₂ → GoodText l₁ → KeyInj l₁ →
      sortErrs l₁ = sortErrs l₂ ∧ reportOutput l₁ = reportOutput l₂) := by
  refine ⟨fun fl fn args cfg₁ cfg₂ p => processCall_perm fl fn args p, ?_⟩
  intro l₁ l₂ p good inj
  have hs : sortErrs l₁ = sortErrs l₂ := sortErrs_eq_of_perm p good inj
  exact ⟨hs, congrArg (List.map errString) hs⟩

/-- C7 witness: two arrival orders of the same two-violation collection
report identically, and a swapped two-rule table analyzes a call to the
same outcome up to violation order. -/
theorem C7_determinism_witness :
    reportOutput [⟨⟨"a.go", 0, 3, 1⟩, "s", "m", 0⟩, ⟨⟨"b.go", 0, 5, 1⟩, "t", "m", 1⟩]
      = reportOutput [⟨⟨"b.go", 0, 5, 1⟩, "t", "m", 1⟩, ⟨⟨"a.go", 0, 3, 1⟩, "s", "m", 0⟩] ∧
    OptPerm
      (processCall emptyLines [("pkg.f", [0]), ("f", [0])]
        (Callee.identFn "f" (some "pkg")) [GoExpr.lit ⟨"a.go", 0, 2, 4⟩])
      (processCall emptyLines [("f", [0]), ("pkg.f", [0])]
        (Callee.identFn "f" (some "pkg")) [GoExpr.lit ⟨"a.go", 0, 2, 4⟩]) :=
  ⟨(C7_determinism.2
      [⟨⟨"a.go", 0, 3, 1⟩, "s", "m", 0⟩, ⟨⟨"b.go", 0, 5, 1⟩, "t", "m", 1⟩]
      [⟨⟨"b.go", 0, 5, 1⟩, "t", "m", 1⟩, ⟨⟨"a.go", 0, 3, 1⟩, "s", "m", 0⟩]
      (List.Perm.swap (⟨⟨"b.go", 0, 5, 1⟩, "t", "m", 1⟩ : OutParamError)
        (⟨⟨"a.go", 0, 3, 1⟩, "s", "m", 0⟩ : OutParamError) [])
      (by unfold GoodText; decide) (by unfold KeyInj; decide)).2,
    C7_determinism.1 emptyLines (Callee.identFn "f" (some "pkg"))
      [GoExpr.lit ⟨"a.go", 0, 2, 4⟩] [("pkg.f", [0]), ("f", [0])] [("f", [0]), ("pkg.f", [0])]
      (List.Perm.swap ("f", [0]) ("pkg.f", [0]) [])⟩

/-- C8 (counterexample).  The claim says the errors of all failing units
are aggregated into one reported failure.  On the code this is false: the
check returns at the first package that carries errors, so with two
failing packages `p1` and `p2` the reported failure is exactly the one
built from `p1`, and it does not change at all when the second failing
package's errors change. -/
theorem C8_only_first_unit_reported :
    loadCheck [⟨"p1", ["e1"], []⟩, ⟨"p2", ["e2"], []⟩]
      = Except.error (loadErrMsg ⟨"p1", ["e1"], []⟩) ∧
    loadCheck [⟨"p1", ["e1"], []⟩, ⟨"p2", ["e2"], []⟩]
      = loadCheck [⟨"p1", ["e1"], []⟩, ⟨"p2", ["another error entirely"], []⟩] ∧
    (["e2"] : List String) ≠ ["another error entirely"] :=
  ⟨rfl, rfl, by decide⟩

/-- C8 (amended).  A failing load aborts the run before any analysis, and
the single reported failure is built from the first failing unit only
(carrying that unit's whole error list); when no unit fails, every unit
is analyzed. -/
theorem C8_load_failure_aborts (fl : FileLines) (cfg : Config) (pkgs : List GoPackage) :
    runTop fl cfg pkgs =
      match pkgs.find? (fun p => !p.errs.isEmpty) with
      | some p => Except.error (loadErrMsg p)
      | none => Except.ok (pkgs.map (runPkg fl cfg)) := by
  unfold runTop loadCheck
  rw [loadCheckLoop_eq_find pkgs pkgs]
  cases pkgs.find? (fun p => !p.errs.isEmpty) with
  | some p => rfl
  | none => rfl

/-- C9.  When the classifier traces a bare identifier to its defining
assignment it always classifies the first right-hand-side expression
`Rhs[0]`, ignoring both the left-hand names and the remaining right-hand
expressions; so for `a, b := A{}, &x`, passing `b` is classified by `A{}`
and yields a violation at that argument index even though `b` holds an
address. -/
theorem C9_rhs0_always :
    (∀ (n : String) (lhs : List String) (r : GoExpr) (rs : List GoExpr) (p : Position),
      isAddr (GoExpr.ident n (some (GoDecl.assign lhs r rs)) p) = isAddr r) ∧
    isAddr (GoExpr.ident "b"
      (some (GoDecl.assign ["a", "b"] (GoExpr.composite [] ⟨"a.go", 0, 2, 10⟩)
        [GoExpr.unary Tok.andOp (GoExpr.ident "x" none ⟨"a.go", 0, 2, 16⟩)
          ⟨"a.go", 0, 2, 15⟩]))
      ⟨"a.go", 0, 4, 7⟩) = false ∧
    processCall emptyLines [("pkg.f", [0])] (Callee.identFn "f" (some "pkg"))
      [GoExpr.ident "b"
        (some (GoDecl.assign ["a", "b"] (GoExpr.composite [] ⟨"a.go", 0, 2, 10⟩)
          [GoExpr.unary Tok.andOp (GoExpr.ident "x" none ⟨"a.go", 0, 2, 16⟩)
            ⟨"a.go", 0, 2, 15⟩]))
        ⟨"a.go", 0, 4, 7⟩] = some [⟨⟨"a.go", 0, 4, 7⟩, "", "f", 0⟩] :=
  ⟨fun _ _ _ _ _ => rfl, by decide, by decide⟩

/-- C10.  Every rendered violation line starts with the full
`file:line:column` position string with everything up to and including
the first occurrence of `/src/` removed; a position string not containing
`/src/` is printed in full; the rest of the line (tab, source text,
fix-it comment) is unaffected. -/
theorem C10_position_trimming (e : OutParamError) :
    (∃ pre suf, (posString e.pos).data = pre ++ srcMarker ++ suf ∧
      (∀ pre2 suf2, (posString e.pos).data = pre2 ++ srcMarker ++ suf2 →
        pre.length ≤ pre2.length) ∧
      (errString e).data = suf ++ '\t' :: (errRest e).data) ∨
    ((∀ pre suf, (posString e.pos).data ≠ pre ++ srcMarker ++ suf) ∧
      (errString e).data = (posString e.pos).data ++ '\t' :: (errRest e).data) := by
  unfold errString trimPosGo
  cases hidx : firstMatchIdx srcMarker (posString e.pos).data with
  | some i =>
    left
    rcases firstMatchIdx_some hidx with ⟨⟨pre, suf, hdec, hlen⟩, hmin⟩
    refine ⟨pre, suf, hdec, fun pre2 suf2 h2 => hlen ▸ hmin pre2 suf2 h2, ?_⟩
    rw [String.data_append, String.data_append]
    have hd : ((⟨(posString e.pos).data.drop (i + srcMarker.length)⟩ : String)).data
        = suf := drop_of_decomp hdec hlen
    rw [hd]
    simp [List.append_assoc]
  | none =>
    right
    refine ⟨firstMatchIdx_none hidx, ?_⟩
    rw [String.data_append, String.data_append]
    simp [List.append_assoc]

/-- C10 witness: the trimming characterization instantiated at a concrete
violation whose position lies under a `/src/` directory. -/
theorem C10_position_trimming_witness :
    (∃ pre suf,
      (posString (⟨"/go/src/foo/a.go", 0, 3, 1⟩ : Position)).data
          = pre ++ srcMarker ++ suf ∧
      (∀ pre2 suf2, (posString (⟨"/go/src/foo/a.go", 0, 3, 1⟩ : Position)).data
          = pre2 ++ srcMarker ++ suf2 → pre.length ≤ pre2.length) ∧
      (errString ⟨⟨"/go/src/foo/a.go", 0, 3, 1⟩, "x", "m", 0⟩).data
        = suf ++ '\t' :: (errRest ⟨⟨"/go/src/foo/a.go", 0, 3, 1⟩, "x", "m", 0⟩).data) ∨
    ((∀ pre suf, (posString (⟨"/go/src/foo/a.go", 0, 3, 1⟩ : Position)).data
        ≠ pre ++ srcMarker ++ suf) ∧
      (errString ⟨⟨"/go/src/foo/a.go", 0, 3, 1⟩, "x", "m", 0⟩).data
        = (posString (⟨"/go/src/foo/a.go", 0, 3, 1⟩ : Position)).data
          ++ '\t' :: (errRest ⟨⟨"/go/src/foo/a.go", 0, 3, 1⟩, "x", "m", 0⟩).data) :=
  C10_position_trimming ⟨⟨"/go/src/foo/a.go", 0, 3, 1⟩, "x", "m", 0⟩
